import Mathlib

/-!
Verification of the file-selection engine of `tools/pack_project.py`.

The development shallowly embeds the pure decision logic of the script:
path strings are `List Char`, byte buffers are `List Nat`, the directory
tree walked by `os.walk` is an inductive tree, and every function is a
computable Lean `def` mirroring the corresponding Python function.
-/

/-- Character list of a string literal, used to write concrete paths. -/
def chars (s : String) : List Char := s.data

/-- ASCII lowercasing of one character, as Python `str.lower` acts on the
ASCII paths and patterns this tool handles. -/
def lowC (c : Char) : Char :=
  if 65 ≤ c.toNat && c.toNat ≤ 90 then Char.ofNat (c.toNat + 32) else c

/-- Lowercase a character list (`str.lower`). -/
def lowerL (l : List Char) : List Char := l.map lowC

/-- Replace a backslash by a forward slash (`pat.replace`, one char). -/
def replBack (c : Char) : Char := if c = '\\' then '/' else c

/-- Python `str.strip` whitespace test (ASCII whitespace). -/
def isSpaceB (c : Char) : Bool :=
  c.toNat = 32 || c.toNat = 9 || c.toNat = 10 || c.toNat = 11 ||
  c.toNat = 12 || c.toNat = 13

/-- Python `str.strip`: drop whitespace from both ends. -/
def stripL (l : List Char) : List Char :=
  ((l.dropWhile isSpaceB).reverse.dropWhile isSpaceB).reverse

/-- Join path components with forward slashes, as the root-relative
POSIX form `str(rel).replace(chr(92), chr(47))` of a path. -/
def joinSlash : List (List Char) → List Char
  | [] => []
  | [x] => x
  | x :: y :: rest => x ++ '/' :: joinSlash (y :: rest)

/-- Index of the last dot in a name, if any (`str.rfind` of a dot). -/
def lastDotIdx : List Char → Option Nat
  | [] => none
  | c :: r =>
    match lastDotIdx r with
    | some j => some (j + 1)
    | none => if c = '.' then some 0 else none

/-- Pathlib `PurePath.suffix` of a base name: the part from the last dot
on, provided that dot is neither the first nor the last character. -/
def pySuffix (name : List Char) : List Char :=
  match lastDotIdx name with
  | none => []
  | some i => if 0 < i && i < name.length - 1 then name.drop i else []

/-- Extension of a file name: `path.suffix.lower().lstrip(chr(46))` in
the source, so the lowercased suffix with its leading dot removed. -/
def fileExt (name : List Char) : List Char :=
  (lowerL (pySuffix name)).dropWhile (fun c => c = '.')

/-- Bounded shell-style matcher for `fnmatch.fnmatch`: a star matches any
run of characters (slashes included, as `fnmatch` translates a star to a
dot-star regex), a question mark matches exactly one character, any other
pattern character matches itself.  The fuel argument only bounds the
recursion depth so the definition is structural and kernel-reducible;
`globMatch` supplies fuel that is always sufficient, since every call
consumes at least one character of the pattern or of the string.
Character-class brackets of `fnmatch` are treated as literal characters:
no pattern appearing in this development uses them. -/
def globMatchF : Nat → List Char → List Char → Bool
  | 0, _, _ => false
  | _ + 1, [], s => s.isEmpty
  | fuel + 1, c :: ps, s =>
    if c = '*' then
      globMatchF fuel ps s ||
        (match s with
         | [] => false
         | _ :: s2 => globMatchF fuel (c :: ps) s2)
    else
      match s with
      | [] => false
      | d :: s2 => (c = '?' || c = d) && globMatchF fuel ps s2

/-- Shell-style match of a pattern against a string (`fnmatch.fnmatch`). -/
def globMatch (p s : List Char) : Bool :=
  globMatchF (p.length + s.length + 1) p s

/-- Pattern normalization done inside `_match_any_glob`: backslashes to
slashes, lowercase, and leading slashes stripped. -/
def normPat (p : List Char) : List Char :=
  (lowerL (p.map replBack)).dropWhile (fun c => c = '/')

/-- The source's `_match_any_glob`: does any pattern of the list match
the lowercased root-relative path. -/
def matchAnyGlob (relLower : List Char) (patterns : List (List Char)) : Bool :=
  patterns.any (fun p => globMatch (normPat p) relLower)

/-- Glob list preparation at the top of `iter_files`: strip each pattern
and drop the empty ones. -/
def prepGlobs (gs : List (List Char)) : List (List Char) :=
  (gs.map stripL).filter (fun g => !g.isEmpty)

/-- The `DEFAULT_EXCLUDE_DIRS` set of the source. -/
def defaultExcludeDirs : List (List Char) :=
  [chars "archive", chars ".git", chars "target", chars ".idea",
   chars ".vscode", chars "node_modules", chars ".venv", chars ".tox",
   chars "dist", chars "build", chars ".mypy_cache", chars ".pytest_cache",
   chars "__pycache__", chars ".cargo"]

/-- The `DEFAULT_EXTS` set of the source (lock is commented out there). -/
def defaultExts : List (List Char) :=
  [chars "wgsl", chars "rs", chars "toml", chars "json", chars "yml",
   chars "yaml", chars "cfg", chars "ini", chars "env"]

/-- The `DEFAULT_EXCLUDE_EXTS` set of the source. -/
def defaultExcludeExts : List (List Char) :=
  [chars "lock", chars "gitignore",
   chars "sh", chars "bash", chars "zsh", chars "ps1", chars "bat",
   chars "cmd", chars "makefile", chars "mk", chars "dockerfile",
   chars "html", chars "css", chars "scss", chars "js", chars "jsx",
   chars "ts", chars "tsx",
   chars "sql", chars "proto", chars "patch", chars "diff", chars "csv",
   chars "tsv", chars "xml", chars "svg", chars "gradle", chars "py",
   chars "exe", chars "dll", chars "so", chars "dylib", chars "a",
   chars "lib", chars "o", chars "obj", chars "pdb", chars "wasm",
   chars "zip", chars "tar", chars "gz", chars "tgz", chars "bz2",
   chars "tbz2", chars "xz", chars "7z", chars "rar",
   chars "png", chars "jpg", chars "jpeg", chars "gif", chars "webp",
   chars "bmp", chars "tiff", chars "tif", chars "ico", chars "icns",
   chars "psd",
   chars "ttf", chars "otf", chars "woff", chars "woff2",
   chars "mp3", chars "mp4", chars "m4a", chars "wav", chars "flac",
   chars "mov", chars "avi", chars "mkv", chars "webm", chars "ogg",
   chars "sqlite", chars "db", chars "rdb", chars "mdb", chars "accdb",
   chars "realm",
   chars "gcda", chars "gcno", chars "profraw", chars "profdata",
   chars "pdf", chars "doc", chars "docx", chars "ppt", chars "pptx",
   chars "xls", chars "xlsx", chars "map"]

/-- The keys of `NAME_LANG_OVERRIDES` in the source; `iter_files` lowercases
them into its `include_names` set (they are already lowercase). -/
def overrideNames : List (List Char) :=
  [chars "dockerfile", chars "makefile", chars "license",
   chars "cargo.toml", chars "cargo.lock", chars "build.rs",
   chars "rust-toolchain", chars "rustfmt.toml", chars ".gitignore",
   chars ".gitattributes", chars ".editorconfig", chars "readme",
   chars "readme.md"]

/-- Run configuration handed to `iter_files`, as `main` builds it:
extension sets are already lowercased there, glob lists are raw. -/
structure FilterConfig where
  excludeDirs : List (List Char)
  exts : List (List Char)
  ignoreExts : List (List Char)
  includeGlobs : List (List Char)
  ignoreGlobs : List (List Char)
  preferInclude : Bool
deriving DecidableEq

/-- Default configuration: the argparse defaults of `main`. -/
def defaultConfig : FilterConfig :=
  { excludeDirs := defaultExcludeDirs
    exts := defaultExts
    ignoreExts := defaultExcludeExts
    includeGlobs := []
    ignoreGlobs := []
    preferInclude := false }

/-- Selection verdict for one candidate, with the spec's names; the
source encodes the three exclusions as bare `continue` statements. -/
inductive Verdict where
  | Include
  | ExcludeByGlob
  | ExcludeByExtension
  | ExcludeNoMatch
deriving DecidableEq

/-- Lowercased root-relative POSIX path of a candidate given as directory
components plus file name. -/
def relLowerOf (dirs : List (List Char)) (fname : List Char) : List Char :=
  lowerL (joinSlash (dirs ++ [fname]))

/-- The source's `should_include_file`: base name in the caller's
include-name set, or extension in the include-extension set, or base name
a `NAME_LANG_OVERRIDES` key. -/
def shouldIncludeFile (nameLower ext : List Char)
    (exts includeNames : List (List Char)) : Bool :=
  includeNames.contains nameLower || exts.contains ext ||
    overrideNames.contains nameLower

/-- Per-candidate decision of `iter_files`, in the exact order of its
guards: prefer-include glob, ignore glob, ignore extension (only for a
nonempty extension, Python truthiness), non-preferred include glob, base
include rule, otherwise no match.  The source folds the ignore-glob and
ignore-extension tests into one `or`; they are split here in the `or`'s
evaluation order to name the two verdicts apart. -/
def fileVerdict (cfg : FilterConfig) (dirs : List (List Char))
    (fname : List Char) : Verdict :=
  if cfg.preferInclude && !(prepGlobs cfg.includeGlobs).isEmpty &&
      matchAnyGlob (relLowerOf dirs fname) (prepGlobs cfg.includeGlobs) then
    Verdict.Include
  else if !(prepGlobs cfg.ignoreGlobs).isEmpty &&
      matchAnyGlob (relLowerOf dirs fname) (prepGlobs cfg.ignoreGlobs) then
    Verdict.ExcludeByGlob
  else if !(fileExt fname).isEmpty && cfg.ignoreExts.contains (fileExt fname) then
    Verdict.ExcludeByExtension
  else if !cfg.preferInclude && !(prepGlobs cfg.includeGlobs).isEmpty &&
      matchAnyGlob (relLowerOf dirs fname) (prepGlobs cfg.includeGlobs) then
    Verdict.Include
  else if shouldIncludeFile (lowerL fname) (fileExt fname) cfg.exts
      overrideNames then
    Verdict.Include
  else
    Verdict.ExcludeNoMatch

/-- Membership in the allowed text-byte set of `is_probably_binary`:
the control codes 7, 8, 9, 10, 12, 13, 27 plus the printable range
0x20 to 0x7E (`range(0x20, 0x7F)`). -/
def isTextByte (b : Nat) : Bool :=
  b = 7 || b = 8 || b = 9 || b = 10 || b = 12 || b = 13 || b = 27 ||
  (32 ≤ b && b ≤ 126)

/-- Count of bytes outside the allowed text set (`nontext` in the source). -/
def nontextCount (chunk : List Nat) : Nat :=
  (chunk.filter (fun b => !isTextByte b)).length

/-- The byte-level heart of `is_probably_binary`, applied to the sniffed
prefix: empty prefix is text, any NUL byte means binary, otherwise binary
when the non-text fraction exceeds the threshold.  The source compares
`nontext / max(1, len(chunk))` with the float literal 0.30; for every
prefix length below 2 to the 50th the float comparison agrees with the
exact rational comparison written here (the nearest double to 0.30 sits
about 1.1e-17 below 3/10, far closer than any rational with such a
denominator can come without being equal), so the cross-multiplied
inequality is the faithful arithmetic of the code. -/
def isProbablyBinaryChunk (chunk : List Nat) : Bool :=
  if chunk.isEmpty then false
  else if chunk.contains 0 then true
  else decide (3 * max 1 chunk.length < 10 * nontextCount chunk)

/-- Outcome of the per-file stage of `main` after a candidate passed the
selection engine: size gate, then binary sniff, then emission. -/
inductive FileOutcome where
  | Written
  | TooLarge
  | BinarySkipped
deriving DecidableEq

/-- Per-file pipeline of `main` lines 318 to 324: skip as too large when
the limit is nonzero and the size exceeds it, otherwise consult the
binary sniffer and emit.  The sniffer is passed as a thunk: the source
only opens and reads the file inside `is_probably_binary`, so a run that
never forces the thunk models a file that is never opened. -/
def processFile (maxBytes size : Nat) (sniff : Unit → Bool) : FileOutcome :=
  if 0 < maxBytes ∧ maxBytes < size then FileOutcome.TooLarge
  else if sniff () then FileOutcome.BinarySkipped
  else FileOutcome.Written

/-- The backtick character, written by code point. -/
def btick : Char := Char.ofNat 96

/-- Lengths of the maximal backtick runs of a string, left to right: the
lengths of the matches of `re.findall` of one-or-more backticks.  The
accumulator carries the length of the run currently open. -/
def btRunsAux : List Char → Nat → List Nat
  | [], cur => if cur = 0 then [] else [cur]
  | c :: rest, cur =>
    if c = btick then btRunsAux rest (cur + 1)
    else (if cur = 0 then [] else [cur]) ++ btRunsAux rest 0

/-- Maximal backtick run lengths of a content string. -/
def btRuns (content : List Char) : List Nat := btRunsAux content 0

/-- The `longest` value of `choose_code_fence`: `max` of the run lengths
with default 0. -/
def longestBtRun (content : List Char) : Nat :=
  List.foldr max 0 (btRuns content)

/-- Length of the fence `choose_code_fence` picks. -/
def fenceLen (content : List Char) : Nat :=
  if 3 ≤ longestBtRun content then longestBtRun content + 2 else 3

/-- The source's `choose_code_fence`: a run of backticks of the chosen
length. -/
def chooseCodeFence (content : List Char) : List Char :=
  List.replicate (fenceLen content) btick

/-- Total boolean comparison of character lists by code point,
lexicographic: the order Python uses on the lowercased sort keys. -/
def charListLe : List Char → List Char → Bool
  | [], _ => true
  | _ :: _, [] => false
  | a :: as, b :: bs =>
    if a.toNat = b.toNat then charListLe as bs else decide (a.toNat < b.toNat)

/-- Sort key of `main` line 300: the root-relative path with backslashes
replaced by slashes, lowercased. -/
def sortKey (p : List Char) : List Char := lowerL (p.map replBack)

/-- Stable insertion of a path in front of the first element whose key is
not below its own: inserting an earlier element this way keeps it before
every later element with an equal key, which is precisely the stability
contract of Python `list.sort`. -/
def insertFile (x : List Char) : List (List Char) → List (List Char)
  | [] => [x]
  | b :: bs =>
    if charListLe (sortKey x) (sortKey b) then x :: b :: bs
    else b :: insertFile x bs

/-- The accepted-set ordering of `main` line 300: a stable sort on the
lowercased slash-normalized relative path.  Python `list.sort` is stable,
and a stable sort for a total transitive boolean comparison is unique,
so this stable insertion sort computes the same list. -/
def sortFiles (l : List (List Char)) : List (List Char) :=
  List.foldr insertFile [] l

/-- Modelled from the spec: comparison with the tie-break the spec
describes, lowercased keys first and original path bytes on key ties.
The source has no such tie-break; this definition exists to compare the
spec's wording with `sortFiles`. -/
def specTieLe (a b : List Char) : Bool :=
  if sortKey a = sortKey b then charListLe a b else charListLe (sortKey a) (sortKey b)

/-- Modelled from the spec: stable insertion under `specTieLe`. -/
def insertSpecTie (x : List Char) : List (List Char) → List (List Char)
  | [] => [x]
  | b :: bs =>
    if specTieLe x b then x :: b :: bs else b :: insertSpecTie x bs

/-- Modelled from the spec: the accepted-set ordering the spec claims,
with the byte tie-break on lowercase collisions. -/
def sortFilesSpecTie (l : List (List Char)) : List (List Char) :=
  List.foldr insertSpecTie [] l

/-- Directory tree as `os.walk` sees it: a node is a plain file or a
directory with named entries. -/
inductive FsTree where
  | file : FsTree
  | dir : List (List Char × FsTree) → FsTree

/-- The candidate enumeration of `iter_files`: walk the tree, pruning
every subdirectory whose lowercased name is in the normalized excluded
set before descending, and yield every file path (as its list of
components from the root).  Pruning applies to directory names only;
file names are always yielded as candidates.  The fuel argument bounds
the recursion depth so the definition is structural; the walked tree is
finite, so any fuel at least its depth plus width yields the full walk,
and the theorems below hold for every fuel. -/
def walkF (excl : List (List Char)) : Nat → FsTree → List (List (List Char))
  | 0, _ => []
  | _ + 1, FsTree.file => []
  | _ + 1, FsTree.dir [] => []
  | fuel + 1, FsTree.dir ((n, t) :: rest) =>
    (match t with
     | FsTree.file => [[n]]
     | FsTree.dir _ =>
       if excl.contains (lowerL n) then []
       else (walkF excl fuel t).map (fun p => n :: p)) ++
    walkF excl fuel (FsTree.dir rest)

/-- Split a candidate path into directory components and file name. -/
def splitPath : List (List Char) → Option (List (List Char) × List Char)
  | [] => none
  | [n] => some ([], n)
  | d :: rest =>
    (splitPath rest).map (fun q => (d :: q.1, q.2))

/-- Accepted set of a run: candidates of the pruned walk that the
selection engine includes. -/
def acceptedFiles (cfg : FilterConfig) (fuel : Nat) (tree : FsTree) :
    List (List (List Char)) :=
  (walkF (cfg.excludeDirs.map lowerL) fuel tree).filter
    (fun p =>
      match splitPath p with
      | some q => decide (fileVerdict cfg q.1 q.2 = Verdict.Include)
      | none => false)

/-- Demo tree for the default-configuration walk: a source directory, a
build directory that must be pruned, and two root files. -/
def demoTree : FsTree :=
  FsTree.dir
    [(chars "src", FsTree.dir [(chars "main.rs", FsTree.file)]),
     (chars "build", FsTree.dir [(chars "output.o", FsTree.file)]),
     (chars "README", FsTree.file),
     (chars "Cargo.lock", FsTree.file)]

/-- Directory descent of `os.walk` with `followlinks=True`, over a graph
of directories where a symlink to a directory is just another edge:
depth-first through an explicit stack of directories still to visit,
pushing every child of the current directory.  `os.walk` keeps no record
of visited directories, so nothing stops a cycle.  The fuel bounds the
number of descent steps; a completed traversal returns `some`, and
exhausting every fuel means the traversal never finishes. -/
def walkLinkF (edges : Nat → List Nat) : Nat → List Nat → Option Unit
  | 0, _ => none
  | _ + 1, [] => some ()
  | fuel + 1, v :: stack => walkLinkF edges fuel (edges v ++ stack)

/-- One directory whose single entry is a symlink back to itself: the
smallest symlink cycle. -/
def cycleEdges : Nat → List Nat := fun _ => [0]

/-- Directory tree in which a directory may be unreadable: `os.walk` is
run with its default error handler, which ignores the `scandir` failure,
so an unreadable directory contributes no files and no subdirectories and
no error report. -/
inductive RTree where
  | file : RTree
  | dir : Bool → List (List Char × RTree) → RTree

/-- Candidate walk over a tree with unreadable directories, mirroring
`walkF` plus the silent skip of unreadable directories that `os.walk`
performs when no error callback is installed (the source installs
none). -/
def walkErrF (excl : List (List Char)) : Nat → RTree → List (List (List Char))
  | 0, _ => []
  | _ + 1, RTree.file => []
  | _ + 1, RTree.dir false _ => []
  | _ + 1, RTree.dir true [] => []
  | fuel + 1, RTree.dir true ((n, t) :: rest) =>
    (match t with
     | RTree.file => [[n]]
     | RTree.dir _ _ =>
       if excl.contains (lowerL n) then []
       else (walkErrF excl fuel t).map (fun p => n :: p)) ++
    walkErrF excl fuel (RTree.dir true rest)

/-- Accepted candidates of a run over a tree with unreadable
directories. -/
def acceptedErrFiles (cfg : FilterConfig) (fuel : Nat) (tree : RTree) :
    List (List (List Char)) :=
  (walkErrF (cfg.excludeDirs.map lowerL) fuel tree).filter
    (fun p =>
      match splitPath p with
      | some q => decide (fileVerdict cfg q.1 q.2 = Verdict.Include)
      | none => false)

/-- The `skipped_errors` counter of `main`: it counts only candidates
whose per-file stat or read raises after selection; `fileOk` tells which
selected files read successfully.  Directory listing failures never reach
this loop, because `os.walk` already swallowed them. -/
def skippedErrorsCount (cfg : FilterConfig) (fuel : Nat) (tree : RTree)
    (fileOk : List (List Char) → Bool) : Nat :=
  ((acceptedErrFiles cfg fuel tree).filter (fun p => !fileOk p)).length

/-- Demo tree for the unreadable-directory run: the root is readable, its
subdirectory is not, and the unreadable subdirectory holds a file the
engine would otherwise select. -/
def demoErrTree : RTree :=
  RTree.dir true
    [(chars "sub", RTree.dir false [(chars "main.rs", RTree.file)])]

/-- Configuration of the prefer-include scenario: include glob for
generated TypeScript, broad ignore glob for TypeScript, prefer-include
on, everything else at its default. -/
def genTsConfig : FilterConfig :=
  { defaultConfig with
      includeGlobs := [chars "**/*.generated.ts"]
      ignoreGlobs := [chars "**/*.ts"]
      preferInclude := true }

/-- Default configuration whose excluded-extension set additionally
contains the empty string. -/
def emptyExtConfig : FilterConfig :=
  { defaultConfig with ignoreExts := [] :: defaultExcludeExts }

/-- A glob list that matched something is nonempty. -/
theorem matchAnyGlob_ne_nil (r : List Char) (ps : List (List Char))
    (h : matchAnyGlob r ps = true) : ps.isEmpty = false := by
  cases ps with
  | nil => simp [matchAnyGlob] at h
  | cons a l => rfl

/-- C1: the spec gives name overrides the highest precedence among the
path rules and expects `Cargo.lock` in the default accepted set, but
`iter_files` tests the excluded-extension set before the name-override
rule of `should_include_file` is ever reached, so with the default
configuration `Cargo.lock` (extension `lock`, an excluded extension and
also an override name) is excluded by extension and never included. -/
theorem cargoLock_excluded_by_extension :
    fileVerdict defaultConfig [] (chars "Cargo.lock") =
      Verdict.ExcludeByExtension ∧
    fileVerdict defaultConfig [] (chars "Cargo.lock") ≠ Verdict.Include := by
  exact ⟨by decide, by decide⟩

/-- C5: the size gate of `main` runs right after selection: a file of
exactly `maxBytes` is not skipped as too large and is written whenever
the sniffer reports text, a file of `maxBytes + 1` is skipped as too
large for every possible sniffer outcome (the sniff thunk is never
consulted, so the file is never opened), and a zero `maxBytes` disables
the size limit. -/
theorem size_gate_boundary :
    ∀ (maxBytes size : Nat) (sniff : Unit → Bool),
      (0 < maxBytes → size = maxBytes →
        processFile maxBytes size sniff ≠ FileOutcome.TooLarge) ∧
      (0 < maxBytes → size = maxBytes → sniff () = false →
        processFile maxBytes size sniff = FileOutcome.Written) ∧
      (0 < maxBytes → size = maxBytes + 1 →
        ∀ sniffB : Unit → Bool,
          processFile maxBytes size sniffB = FileOutcome.TooLarge) ∧
      (maxBytes = 0 → processFile maxBytes size sniff ≠ FileOutcome.TooLarge) := by
  intro maxBytes size sniff
  refine ⟨?_, ?_, ?_, ?_⟩
  · intro h1 h2
    subst h2
    unfold processFile
    rw [if_neg (by omega)]
    split <;> simp
  · intro h1 h2 h3
    subst h2
    unfold processFile
    rw [if_neg (by omega), h3]
    simp
  · intro h1 h2 sniffB
    subst h2
    unfold processFile
    rw [if_pos ⟨h1, by omega⟩]
  · intro h0
    subst h0
    unfold processFile
    rw [if_neg (by omega)]
    split <;> simp

/-- C5 witness: with a limit of 5 bytes, a 5-byte text file is written
and a 6-byte file is skipped as too large. -/
theorem size_gate_boundary_witness :
    processFile 5 5 (fun _ => false) = FileOutcome.Written ∧
    processFile 5 6 (fun _ => true) = FileOutcome.TooLarge := by
  exact ⟨(size_gate_boundary 5 5 (fun _ => false)).2.1 (by decide) rfl rfl,
         (size_gate_boundary 5 6 (fun _ => true)).2.2.1 (by decide) rfl
           (fun _ => true)⟩

/-- C7: the claim says the walk terminates on a symlink cycle, but the
source calls `os.walk` with `followlinks=True` and no cycle tracking, so
on the one-directory cycle no finite number of descent steps ever
completes the traversal: the walk does not terminate. -/
theorem walk_cycle_never_completes :
    ∀ fuel : Nat, walkLinkF cycleEdges fuel [0] = none := by
  intro fuel
  induction fuel with
  | zero => rfl
  | succ f ih => simpa [walkLinkF, cycleEdges] using ih

/-- C8: the claim says a directory listing failure is counted in the
run-level error counters, but `os.walk` is invoked without an error
callback, so an unreadable directory contributes nothing and the
`skipped_errors` counter (which only counts per-file failures after
selection) stays at zero: the failure is silently treated as the
directory having no matches. -/
theorem unreadable_dir_not_counted :
    ∀ (fuel : Nat) (fileOk : List (List Char) → Bool),
      walkErrF (defaultConfig.excludeDirs.map lowerL) fuel demoErrTree = [] ∧
      skippedErrorsCount defaultConfig fuel demoErrTree fileOk = 0 := by
  intro fuel fileOk
  have hw : walkErrF (defaultConfig.excludeDirs.map lowerL) fuel demoErrTree = [] := by
    cases fuel with
    | zero => rfl
    | succ f =>
      cases f with
      | zero => simp [walkErrF]
      | succ g => simp [walkErrF]
  refine ⟨hw, ?_⟩
  unfold skippedErrorsCount acceptedErrFiles
  rw [hw]
  rfl

/-- C2: whenever prefer-include is on and the lowercased root-relative
path matches some include glob, the verdict is Include regardless of any
ignore glob or excluded extension, because that test is the first guard
of `iter_files`; in the generated-TypeScript scenario the generated file
is accepted while the plain file falls to the broad ignore glob. -/
theorem preferInclude_glob_wins :
    (∀ (cfg : FilterConfig) (dirs : List (List Char)) (fname : List Char),
      cfg.preferInclude = true →
      matchAnyGlob (relLowerOf dirs fname) (prepGlobs cfg.includeGlobs) = true →
      fileVerdict cfg dirs fname = Verdict.Include) ∧
    fileVerdict genTsConfig [chars "pkg"] (chars "api.generated.ts") =
      Verdict.Include ∧
    fileVerdict genTsConfig [chars "pkg"] (chars "plain.ts") =
      Verdict.ExcludeByGlob := by
  refine ⟨?_, by decide, by decide⟩
  intro cfg dirs fname hp hm
  have hne := matchAnyGlob_ne_nil _ _ hm
  unfold fileVerdict
  rw [hp, hm, hne]
  rfl

/-- C2 witness: the theorem applied to the generated-TypeScript scenario
accepts `pkg/api.generated.ts`. -/
theorem preferInclude_glob_wins_witness :
    fileVerdict genTsConfig [chars "pkg"] (chars "api.generated.ts") =
      Verdict.Include :=
  preferInclude_glob_wins.1 genTsConfig [chars "pkg"]
    (chars "api.generated.ts") rfl (by decide)

/-- C10: a candidate with an empty extension can never receive the
extension-exclusion verdict, whatever the configuration (even one whose
excluded-extension set contains the empty string), because the source
guards the set test with the truthiness of the extension; such a file is
either included or excluded by an ignore glob or excluded for matching
no rule. -/
theorem extensionless_never_ext_excluded :
    ∀ (cfg : FilterConfig) (dirs : List (List Char)) (fname : List Char),
      fileExt fname = [] →
      fileVerdict cfg dirs fname ≠ Verdict.ExcludeByExtension ∧
      (fileVerdict cfg dirs fname = Verdict.Include ∨
       fileVerdict cfg dirs fname = Verdict.ExcludeByGlob ∨
       fileVerdict cfg dirs fname = Verdict.ExcludeNoMatch) := by
  intro cfg dirs fname h
  unfold fileVerdict
  rw [h]
  simp only [List.isEmpty_nil, Bool.not_true, Bool.false_and,
    Bool.false_eq_true, if_false]
  constructor
  · split
    · decide
    · split
      · decide
      · split
        · decide
        · split <;> decide
  · split
    · simp
    · split
      · simp
      · split
        · simp
        · split <;> simp

/-- C10 witness: `README` has no extension and is not extension-excluded
even when the excluded-extension set contains the empty string. -/
theorem extensionless_never_ext_excluded_witness :
    fileVerdict emptyExtConfig [] (chars "README") ≠
      Verdict.ExcludeByExtension :=
  (extensionless_never_ext_excluded emptyExtConfig [] (chars "README")
    (by decide)).1

/-- C4: the binary sniffer on a byte prefix classifies an empty prefix
as text, any prefix holding a NUL byte as binary, and otherwise is
binary exactly when the fraction of bytes outside the allowed text set
strictly exceeds thirty percent; a hundred-byte buffer with 29 non-text
bytes is text and one with 31 non-text bytes is binary. -/
theorem binary_sniffer_threshold :
    isProbablyBinaryChunk [] = false ∧
    (∀ chunk : List Nat, chunk.contains 0 = true →
      isProbablyBinaryChunk chunk = true) ∧
    (∀ chunk : List Nat, chunk ≠ [] → chunk.contains 0 = false →
      (isProbablyBinaryChunk chunk = true ↔
        (30 : ℚ) / 100 < (nontextCount chunk : ℚ) / (chunk.length : ℚ))) ∧
    isProbablyBinaryChunk (List.replicate 29 1 ++ List.replicate 71 65) = false ∧
    isProbablyBinaryChunk (List.replicate 31 1 ++ List.replicate 69 65) = true := by
  refine ⟨rfl, ?_, ?_, by decide, by decide⟩
  · intro chunk h
    have hempty0 : chunk.isEmpty = false := by
      cases chunk with
      | nil => simp at h
      | cons b l => rfl
    rw [isProbablyBinaryChunk, hempty0, h]
    simp
  · intro chunk hne h0
    have hlen : 0 < chunk.length := List.length_pos.mpr hne
    have hempty : chunk.isEmpty = false := by
      cases chunk with
      | nil => exact absurd rfl hne
      | cons b l => rfl
    have hmax : max 1 chunk.length = chunk.length := Nat.max_eq_right hlen
    rw [isProbablyBinaryChunk, hempty, h0, hmax]
    simp only [Bool.false_eq_true, if_false, decide_eq_true_eq]
    rw [div_lt_div_iff₀ (by norm_num) (by exact_mod_cast hlen)]
    have hiff : (30 * chunk.length < nontextCount chunk * 100) ↔
        (3 * chunk.length < 10 * nontextCount chunk) := by omega
    rw [show ((30 : ℚ) * (chunk.length : ℚ) < (nontextCount chunk : ℚ) * 100) ↔
        (30 * chunk.length < nontextCount chunk * 100) from by exact_mod_cast Iff.rfl]
    exact hiff.symm

/-- C4 witness: a single NUL byte is classified binary. -/
theorem binary_sniffer_threshold_witness :
    isProbablyBinaryChunk [0] = true :=
  binary_sniffer_threshold.2.1 [0] rfl

/-- Every candidate the pruned walk yields is a nonempty component path
none of whose directory components is an excluded name. -/
theorem walkF_no_excluded_component (excl : List (List Char)) :
    ∀ (fuel : Nat) (tree : FsTree) (p : List (List Char)),
      p ∈ walkF excl fuel tree →
      p ≠ [] ∧ ∀ d ∈ p.dropLast, excl.contains (lowerL d) = false := by
  intro fuel
  induction fuel with
  | zero => intro tree p hp; simp [walkF] at hp
  | succ f ih =>
    intro tree p hp
    match tree with
    | FsTree.file => simp [walkF] at hp
    | FsTree.dir [] => simp [walkF] at hp
    | FsTree.dir ((n, FsTree.file) :: rest) =>
      simp only [walkF, List.mem_append] at hp
      rcases hp with h1 | h2
      · simp at h1
        subst h1
        exact ⟨by simp, by simp⟩
      · exact ih (FsTree.dir rest) p h2
    | FsTree.dir ((n, FsTree.dir entries) :: rest) =>
      simp only [walkF, List.mem_append] at hp
      rcases hp with h1 | h2
      · by_cases hc : excl.contains (lowerL n) = true
        · rw [if_pos hc] at h1
          simp at h1
        · rw [if_neg hc] at h1
          obtain ⟨p2, hp2, rfl⟩ := List.mem_map.mp h1
          obtain ⟨hne, hall⟩ := ih (FsTree.dir entries) p2 hp2
          refine ⟨by simp, ?_⟩
          rw [List.dropLast_cons_of_ne_nil hne]
          intro d hd
          rcases List.mem_cons.mp hd with rfl | hd2
          · exact Bool.eq_false_iff.mpr hc
          · exact hall d hd2
      · exact ih (FsTree.dir rest) p h2

/-- C3: no file under a directory whose lowercased name is excluded is
ever produced as a candidate by the pruned walk, nor does one appear in
the accepted set, since pruning happens before the subtree is
enumerated and selection only filters the candidates (the source model
has no symlinks, so every path is reached directly). -/
theorem excluded_dirs_prune_subtrees :
    ∀ (cfg : FilterConfig) (fuel : Nat) (tree : FsTree) (p : List (List Char)),
      (p ∈ walkF (cfg.excludeDirs.map lowerL) fuel tree ∨
        p ∈ acceptedFiles cfg fuel tree) →
      ∀ d ∈ p.dropLast,
        (cfg.excludeDirs.map lowerL).contains (lowerL d) = false := by
  intro cfg fuel tree p hp
  rcases hp with h | h
  · exact (walkF_no_excluded_component _ fuel tree p h).2
  · exact (walkF_no_excluded_component _ fuel tree p
      (List.mem_of_mem_filter h)).2

/-- C3 witness: in the demo tree under the default configuration, the
accepted path `src/main.rs` has no excluded directory component. -/
theorem excluded_dirs_prune_subtrees_witness :
    (defaultConfig.excludeDirs.map lowerL).contains (lowerL (chars "src")) =
      false :=
  excluded_dirs_prune_subtrees defaultConfig 10 demoTree
    [chars "src", chars "main.rs"] (Or.inr (by decide)) (chars "src")
    (by decide)

/-- Code-point comparison is reflexive. -/
theorem charListLe_refl : ∀ l : List Char, charListLe l l = true := by
  intro l
  induction l with
  | nil => rfl
  | cons a as ih => simp [charListLe, ih]

/-- Code-point comparison is total. -/
theorem charListLe_total :
    ∀ a b : List Char, charListLe a b = true ∨ charListLe b a = true := by
  intro a
  induction a with
  | nil => intro b; left; rfl
  | cons x xs ih =>
    intro b
    cases b with
    | nil => right; rfl
    | cons y ys =>
      by_cases h : x.toNat = y.toNat
      · have h' : y.toNat = x.toNat := h.symm
        rcases ih ys with h1 | h1
        · left; simp [charListLe, h, h1]
        · right; simp [charListLe, h', h1]
      · have h' : ¬y.toNat = x.toNat := fun e => h e.symm
        rcases Nat.lt_or_ge x.toNat y.toNat with h2 | h2
        · left; simp [charListLe, h, h2]
        · right
          have h3 : y.toNat < x.toNat := lt_of_le_of_ne h2 (fun e => h e.symm)
          simp [charListLe, h', h3]

/-- Code-point comparison is transitive. -/
theorem charListLe_trans :
    ∀ a b c : List Char, charListLe a b = true → charListLe b c = true →
      charListLe a c = true := by
  intro a
  induction a with
  | nil => intro b c _ _; rfl
  | cons x xs ih =>
    intro b c hab hbc
    cases b with
    | nil => simp [charListLe] at hab
    | cons y ys =>
      cases c with
      | nil => simp [charListLe] at hbc
      | cons z zs =>
        by_cases hxy : x.toNat = y.toNat
        · rw [charListLe, if_pos hxy] at hab
          by_cases hyz : y.toNat = z.toNat
          · rw [charListLe, if_pos hyz] at hbc
            rw [charListLe, if_pos (hxy.trans hyz)]
            exact ih ys zs hab hbc
          · rw [charListLe, if_neg hyz] at hbc
            have hlt : y.toNat < z.toNat := of_decide_eq_true hbc
            have hxz : x.toNat < z.toNat := hxy ▸ hlt
            rw [charListLe, if_neg (by omega)]
            exact decide_eq_true hxz
        · rw [charListLe, if_neg hxy] at hab
          have hlt1 : x.toNat < y.toNat := of_decide_eq_true hab
          by_cases hyz : y.toNat = z.toNat
          · have hxz : x.toNat < z.toNat := hyz ▸ hlt1
            rw [charListLe, if_neg (by omega)]
            exact decide_eq_true hxz
          · rw [charListLe, if_neg hyz] at hbc
            have hlt2 : y.toNat < z.toNat := of_decide_eq_true hbc
            have hxz : x.toNat < z.toNat := hlt1.trans hlt2
            rw [charListLe, if_neg (by omega)]
            exact decide_eq_true hxz

/-- Inserting a path permutes pushing it on the front. -/
theorem insertFile_perm (x : List Char) :
    ∀ l : List (List Char), List.Perm (insertFile x l) (x :: l) := by
  intro l
  induction l with
  | nil => exact List.Perm.refl _
  | cons b bs ih =>
    rw [insertFile]
    split
    · exact List.Perm.refl _
    · exact (ih.cons b).trans (List.Perm.swap x b bs)

/-- Members of an insertion are the inserted path or old members. -/
theorem insertFile_mem (x y : List Char) (l : List (List Char))
    (h : y ∈ insertFile x l) : y = x ∨ y ∈ l := by
  have := (insertFile_perm x l).mem_iff.mp h
  simpa using this

/-- Insertion keeps the list pairwise-ordered on the sort key. -/
theorem insertFile_pairwise (x : List Char) :
    ∀ l : List (List Char),
      List.Pairwise (fun a b => charListLe (sortKey a) (sortKey b) = true) l →
      List.Pairwise (fun a b => charListLe (sortKey a) (sortKey b) = true)
        (insertFile x l) := by
  intro l
  induction l with
  | nil => intro _; simp [insertFile]
  | cons b bs ih =>
    intro h
    rcases List.pairwise_cons.mp h with ⟨hb, hbs⟩
    rw [insertFile]
    split
    · rename_i hle
      refine List.pairwise_cons.mpr ⟨?_, h⟩
      intro y hy
      rcases List.mem_cons.mp hy with rfl | hy2
      · exact hle
      · exact charListLe_trans _ _ _ hle (hb y hy2)
    · rename_i hle
      refine List.pairwise_cons.mpr ⟨?_, ih hbs⟩
      intro y hy
      rcases insertFile_mem x y bs hy with rfl | hy2
      · rcases charListLe_total (sortKey y) (sortKey b) with h1 | h1
        · exact absurd h1 hle
        · exact h1
      · exact hb y hy2

/-- Insertion puts the new path in front of every path with the same
key and changes nothing else, seen through a key filter. -/
theorem insertFile_filter (x k : List Char) :
    ∀ l : List (List Char),
      (insertFile x l).filter (fun p => decide (sortKey p = k)) =
        if sortKey x = k then
          x :: l.filter (fun p => decide (sortKey p = k))
        else l.filter (fun p => decide (sortKey p = k)) := by
  intro l
  induction l with
  | nil =>
    rw [insertFile]
    by_cases hk : sortKey x = k
    · rw [if_pos hk]; simp [List.filter, hk]
    · rw [if_neg hk]; simp [List.filter, hk]
  | cons b bs ih =>
    rw [insertFile]
    split
    · rename_i hle
      by_cases hk : sortKey x = k
      · simp [List.filter_cons, hk]
      · simp [List.filter_cons, hk]
    · rename_i hle
      by_cases hk : sortKey x = k
      · have hbk : ¬sortKey b = k := by
          intro e
          have hxb : sortKey x = sortKey b := hk.trans e.symm
          exact hle (by rw [hxb]; exact charListLe_refl _)
        rw [List.filter_cons, ih, if_pos hk, List.filter_cons]
        simp [hk, hbk]
      · rw [List.filter_cons, ih, if_neg hk, List.filter_cons]
        simp [hk]

/-- C6 counterexample: the accepted set is sorted only by the lowercased
key, with ties left in traversal order, not broken by original path
bytes: on a pair of paths whose lowercase forms collide the source keeps
the enumeration order while the spec's byte tie-break would reverse it. -/
theorem sort_no_byte_tiebreak :
    sortFiles [chars "b.rs", chars "B.rs"] = [chars "b.rs", chars "B.rs"] ∧
    sortFilesSpecTie [chars "b.rs", chars "B.rs"] =
      [chars "B.rs", chars "b.rs"] ∧
    sortFiles [chars "b.rs", chars "B.rs"] ≠
      sortFilesSpecTie [chars "b.rs", chars "B.rs"] := by
  exact ⟨by decide, by decide, by decide⟩

/-- C6 amended: the accepted set is sorted ascending by the lowercased
slash-normalized relative path, it is a permutation of the walked list,
and the sort is stable: paths whose keys are equal keep their original
relative order (the filter on any fixed key is unchanged); there is no
byte-level tie-break. -/
theorem sortFiles_sorted_stable :
    ∀ l : List (List Char),
      List.Pairwise (fun a b => charListLe (sortKey a) (sortKey b) = true)
        (sortFiles l) ∧
      List.Perm (sortFiles l) l ∧
      ∀ k : List Char,
        (sortFiles l).filter (fun p => decide (sortKey p = k)) =
          l.filter (fun p => decide (sortKey p = k)) := by
  intro l
  induction l with
  | nil => exact ⟨List.Pairwise.nil, List.Perm.nil, fun _ => rfl⟩
  | cons x xs ih =>
    obtain ⟨hs, hp, hf⟩ := ih
    have hstep : sortFiles (x :: xs) = insertFile x (sortFiles xs) := rfl
    refine ⟨?_, ?_, ?_⟩
    · rw [hstep]
      exact insertFile_pairwise x _ hs
    · rw [hstep]
      exact (insertFile_perm x (sortFiles xs)).trans (hp.cons x)
    · intro k
      rw [hstep, insertFile_filter, hf k, List.filter_cons]
      by_cases hk : sortKey x = k
      · rw [if_pos hk]
        simp [hk]
      · rw [if_neg hk]
        simp [hk]

/-- The seed of a fold by maximum bounds the fold from below. -/
theorem le_foldr_max (l : List Nat) : ∀ s : Nat, s ≤ List.foldr max s l := by
  induction l with
  | nil => intro s; exact Nat.le_refl s
  | cons a r ih =>
    intro s
    exact Nat.le_trans (ih s) (Nat.le_max_right a (List.foldr max s r))

/-- A fold by maximum over an appended list bounds the fold over the
right part. -/
theorem foldr_max_append (a b : List Nat) :
    List.foldr max 0 b ≤ List.foldr max 0 (a ++ b) := by
  induction a with
  | nil => exact Nat.le_refl _
  | cons x r ih =>
    exact Nat.le_trans ih (Nat.le_max_right x (List.foldr max 0 (r ++ b)))

/-- The open-run accumulator bounds the maximum of the run lengths. -/
theorem btRunsAux_max_ge (l : List Char) :
    ∀ cur : Nat, cur ≤ List.foldr max 0 (btRunsAux l cur) := by
  induction l with
  | nil =>
    intro cur
    rw [btRunsAux]
    by_cases h : cur = 0
    · simp [h]
    · rw [if_neg h]
      exact Nat.le_max_left cur 0
  | cons c rest ih =>
    intro cur
    rw [btRunsAux]
    by_cases hc : c = btick
    · rw [if_pos hc]
      exact Nat.le_trans (Nat.le_succ cur) (ih (cur + 1))
    · rw [if_neg hc]
      by_cases h : cur = 0
      · simp [h]
      · rw [if_neg h]
        simp only [List.foldr, List.cons_append, List.nil_append]
        exact Nat.le_max_left cur _

/-- Opening a run of backtick characters raises the maximum by at least
the run length. -/
theorem btRunsAux_max_rep (t : List Char) :
    ∀ (k cur : Nat),
      cur + k ≤ List.foldr max 0 (btRunsAux (List.replicate k btick ++ t) cur) := by
  intro k
  induction k with
  | zero =>
    intro cur
    simpa using btRunsAux_max_ge t cur
  | succ kk ih =>
    intro cur
    rw [List.replicate_succ, List.cons_append]
    simp only [btRunsAux, if_true]
    have h := ih (cur + 1)
    omega

/-- Any backtick run embedded anywhere in the content is bounded by the
maximum run length the scanner computes, whatever run is open. -/
theorem run_le_btRunsAux_max (k : Nat) :
    ∀ (s t : List Char) (cur : Nat),
      k ≤ List.foldr max 0 (btRunsAux (s ++ List.replicate k btick ++ t) cur) := by
  intro s
  induction s with
  | nil =>
    intro t cur
    have h := btRunsAux_max_rep t k cur
    simpa using Nat.le_trans (Nat.le_add_left k cur) h
  | cons c s2 ih =>
    intro t cur
    rw [List.cons_append]
    simp only [btRunsAux]
    by_cases hc : c = btick
    · rw [if_pos hc]
      exact ih t (cur + 1)
    · rw [if_neg hc]
      by_cases h : cur = 0
      · rw [if_pos h]
        exact ih t 0
      · rw [if_neg h]
        refine Nat.le_trans (ih t 0) ?_
        exact foldr_max_append [cur] (btRunsAux (s2 ++ List.replicate k btick ++ t) 0)

/-- C9: the chosen code fence is a run of backticks, at least three
long, and strictly longer than every run of consecutive backticks in
the fenced content, so the fence cannot collide with the content. -/
theorem fence_exceeds_runs :
    ∀ content : List Char,
      chooseCodeFence content = List.replicate (fenceLen content) btick ∧
      3 ≤ fenceLen content ∧
      ∀ (k : Nat) (s t : List Char),
        content = s ++ List.replicate k btick ++ t → k < fenceLen content := by
  intro content
  refine ⟨rfl, ?_, ?_⟩
  · rw [fenceLen]
    split <;> omega
  · intro k s t hct
    have hk : k ≤ longestBtRun content := by
      rw [longestBtRun, btRuns, hct]
      exact run_le_btRunsAux_max k s t 0
    rw [fenceLen]
    split <;> omega

/-- C9 witness: for a content holding a run of two backticks between two
letters, the chosen fence is strictly longer than that run. -/
theorem fence_exceeds_runs_witness :
    2 < fenceLen ([Char.ofNat 97] ++ List.replicate 2 btick ++ [Char.ofNat 98]) :=
  (fence_exceeds_runs
    ([Char.ofNat 97] ++ List.replicate 2 btick ++ [Char.ofNat 98])).2.2 2
    [Char.ofNat 97] [Char.ofNat 98] rfl
